import Mathlib

/-!
Verification of the sparse store (`store/store.go`): a sparse, offset-addressable
buffer storing only written segments, with `Set`, `Get`, `Has`, `Occupancy`,
`Length` and a compaction pass that resolves overlaps by write order and merges
small touching segments.

The Go code is shallowly embedded: slices become `List T`, the Go `int` becomes
`Int` (no arithmetic in the claims approaches 2^63, so overflow is immaterial),
in-place slice copies become the pure `overwrite` function, and the imperative
compaction loop (whose `i--; continue` always re-runs the comparison at the
same index and never moves further back) becomes the structurally recursive
`compactAux`.
-/

section SparseStore

variable {T : Type}

/-- One stored segment: `order` is the write sequence number (`insertCount` at
the time of the `Set`), `offset` the logical start, `data` the stored run.
Mirrors `entry[T]` in store.go. -/
structure Entry (T : Type) where
  order : Int
  offset : Int
  data : List T
  deriving Repr, DecidableEq

/-- The store state, mirroring `Store[T]` in store.go. -/
structure Store (T : Type) where
  minContiguous : Int
  entries : List (Entry T)
  insertCount : Int
  occupancy : Int
  length : Int
  deriving Repr, DecidableEq

/-- `defaultMinContiguous = 16 << 10` from store.go. -/
def defaultMinContiguous : Int := 16384

/-- `NewStore()` with no options. -/
def NewStore : Store T :=
  { minContiguous := defaultMinContiguous, entries := [], insertCount := 0,
    occupancy := 0, length := 0 }

/-- The `WithMinContiguous` option applied to a store under construction. -/
def WithMinContiguous (m : Int) (s : Store T) : Store T :=
  { s with minContiguous := m }

/-- `entries.Search(x)`: index of the first entry with `offset ≥ x`.
`sort.Search` performs binary search for the first index where the predicate
holds; on an offset-sorted list (the only lists the code ever searches) that is
the first-match index computed here. -/
def Search : List (Entry T) → Int → Nat
  | [], _ => 0
  | e :: es, x => if x ≤ e.offset then 0 else Search es x + 1

/-- `slices.Insert(l, i, a)` for a single element. -/
def insertAt (l : List (Entry T)) (i : Nat) (a : Entry T) : List (Entry T) :=
  l.take i ++ a :: l.drop i

/-- Go's `copy(dst[k:], src)`: overwrite `dst` from position `k` with as much
of `src` as fits, leaving length and the rest of `dst` unchanged. -/
def overwrite (dst : List T) (k : Nat) (src : List T) : List T :=
  dst.take k ++ src.take (dst.length - k) ++ dst.drop (k + src.length)

/-- The body of `compact` (store.go lines 145-193): walk adjacent pairs left to
right; on overlap either drop a contained next entry (copying its data into the
current one when it is newer) or truncate the older side so the pair touches;
merge exactly-touching pairs whose combined span is at most `minContiguous`.
`cur` is `entries[i]`, the list argument is `entries[i+1:]`, and the `Int`
argument threads `occupancy`.  The Go `i--; continue` (re-examine the same
index after a removal) is the recursive call that keeps a new `cur`; moving on
to `i+1` is the branch that conses `cur` onto the recursive result. -/
def compactAux (minC : Int) : Entry T → List (Entry T) → Int → List (Entry T) × Int
  | cur, [], occ => ([cur], occ)
  | cur, nxt :: rest, occ =>
    if nxt.offset < cur.offset + (cur.data.length : Int) then
      if nxt.offset + (nxt.data.length : Int) ≤ cur.offset + (cur.data.length : Int) then
        compactAux minC
          (if cur.order < nxt.order then
            { cur with data := overwrite cur.data (nxt.offset - cur.offset).toNat nxt.data }
           else cur)
          rest (occ - (nxt.data.length : Int))
      else
        if cur.order < nxt.order then
          if nxt.offset + (nxt.data.length : Int) - cur.offset ≤ minC then
            compactAux minC
              ⟨cur.order, cur.offset, cur.data.take (nxt.offset - cur.offset).toNat ++ nxt.data⟩
              rest (occ - (cur.offset + (cur.data.length : Int) - nxt.offset))
          else
            (⟨cur.order, cur.offset, cur.data.take (nxt.offset - cur.offset).toNat⟩ ::
                (compactAux minC nxt rest
                  (occ - (cur.offset + (cur.data.length : Int) - nxt.offset))).1,
              (compactAux minC nxt rest
                (occ - (cur.offset + (cur.data.length : Int) - nxt.offset))).2)
        else
          if nxt.offset + (nxt.data.length : Int) - cur.offset ≤ minC then
            compactAux minC
              ⟨cur.order, cur.offset,
                cur.data ++ nxt.data.drop (cur.offset + (cur.data.length : Int) - nxt.offset).toNat⟩
              rest (occ - (cur.offset + (cur.data.length : Int) - nxt.offset))
          else
            (cur ::
                (compactAux minC
                  ⟨nxt.order, cur.offset + (cur.data.length : Int),
                    nxt.data.drop (cur.offset + (cur.data.length : Int) - nxt.offset).toNat⟩
                  rest (occ - (cur.offset + (cur.data.length : Int) - nxt.offset))).1,
              (compactAux minC
                ⟨nxt.order, cur.offset + (cur.data.length : Int),
                  nxt.data.drop (cur.offset + (cur.data.length : Int) - nxt.offset).toNat⟩
                rest (occ - (cur.offset + (cur.data.length : Int) - nxt.offset))).2)
    else
      if cur.offset + (cur.data.length : Int) = nxt.offset ∧
          nxt.offset + (nxt.data.length : Int) - cur.offset ≤ minC then
        compactAux minC ⟨cur.order, cur.offset, cur.data ++ nxt.data⟩ rest occ
      else
        (cur :: (compactAux minC nxt rest occ).1, (compactAux minC nxt rest occ).2)

/-- `(c *Store[T]) compact()`. -/
def Store.compact (s : Store T) : Store T :=
  match s.entries with
  | [] => s
  | c :: rest =>
    { s with entries := (compactAux s.minContiguous c rest s.occupancy).1,
             occupancy := (compactAux s.minContiguous c rest s.occupancy).2 }

/-- `(c *Store[T]) Set(offset, p)`: insert the new entry at the sorted
position, bump the write counter, update `length` and (optimistically)
`occupancy`, then compact. -/
def Store.Set (s : Store T) (offset : Int) (p : List T) : Store T :=
  Store.compact
    { s with
      entries := insertAt s.entries (Search s.entries offset) ⟨s.insertCount, offset, p⟩,
      insertCount := s.insertCount + 1,
      length := if s.length < offset + (p.length : Int) then offset + (p.length : Int) else s.length,
      occupancy := s.occupancy + (p.length : Int) }

/-- The scan loop of `Has`: returns the final `completeTo` value. -/
def hasLoop (offset length : Int) : List (Entry T) → Int → Int
  | [], ct => ct
  | e :: es, ct =>
    if e.offset + (e.data.length : Int) < offset then hasLoop offset length es ct
    else if offset + length < e.offset ∨ ct < e.offset then ct
    else hasLoop offset length es (e.offset + (e.data.length : Int))

/-- `(c *Store[T]) Has(offset, length)`. -/
def Store.Has (s : Store T) (offset length : Int) : Bool :=
  if s.entries.length = 0 ∧ 0 < length then false
  else decide (offset + length ≤ hasLoop offset length s.entries offset)

/-- The scan loop of `Get`: returns the filled buffer, the final `completeTo`
and the `complete` flag. -/
def getLoop (offset : Int) : List (Entry T) → List T → Int → Bool → List T × Int × Bool
  | [], p, ct, b => (p, ct, b)
  | e :: es, p, ct, b =>
    if e.offset + (e.data.length : Int) < offset then getLoop offset es p ct b
    else if offset + (p.length : Int) < e.offset then (p, ct, b)
    else
      getLoop offset es
        (if e.offset - offset < 0
          then overwrite p 0 (e.data.drop (offset - e.offset).toNat)
          else overwrite p (e.offset - offset).toNat e.data)
        (e.offset + (e.data.length : Int))
        (if ct < e.offset then false else b)

/-- `(c *Store[T]) Get(offset, p)`: the (possibly partially) filled buffer and
the completeness flag. -/
def Store.Get (s : Store T) (offset : Int) (p : List T) : List T × Bool :=
  if s.entries.length = 0 ∧ 0 < p.length then (p, false)
  else
    let r := getLoop offset s.entries p offset true
    (r.1, r.2.2 && decide (offset + (r.1.length : Int) ≤ r.2.1))

/-- `Occupancy()`. -/
def Store.Occupancy (s : Store T) : Int := s.occupancy

/-- `Length()`. -/
def Store.Length (s : Store T) : Int := s.length

/-- Apply a sequence of `Set` calls in order. -/
def applyWrites (s : Store T) : List (Int × List T) → Store T
  | [] => s
  | w :: ws => applyWrites (s.Set w.1 w.2) ws

/-- Non-overlap of two adjacent segments: the earlier one ends at or before
the later one starts. -/
def entryLE (a b : Entry T) : Prop :=
  a.offset + (a.data.length : Int) ≤ b.offset

instance : DecidableRel (entryLE (T := T)) := fun _ _ =>
  inferInstanceAs (Decidable (_ ≤ _))

/-- The store's segment-list invariant: adjacent segments are ordered and do
not overlap (spec §3, invariants 1 and 2). -/
def Good (es : List (Entry T)) : Prop := List.Chain' entryLE es

/-- Executable check for `Good`. -/
def goodB : List (Entry T) → Bool
  | [] => true
  | [_] => true
  | a :: b :: es => decide (entryLE a b) && goodB (b :: es)

theorem goodB_iff (es : List (Entry T)) : goodB es = true ↔ Good es := by
  match es with
  | [] => simp [goodB, Good]
  | [a] => simp [goodB, Good]
  | a :: b :: es =>
    rw [Good, List.chain'_cons]
    simp [goodB, goodB_iff (b :: es), Good]

instance (es : List (Entry T)) : Decidable (Good es) :=
  decidable_of_iff _ (goodB_iff es)

/-- Sum of the segment data lengths. -/
def sizes (es : List (Entry T)) : Int := (es.map fun e => (e.data.length : Int)).sum

/-- The value a single segment stores at logical position `x`. -/
def entryVal (e : Entry T) (x : Int) : Option T :=
  if e.offset ≤ x ∧ x < e.offset + (e.data.length : Int) then e.data[(x - e.offset).toNat]?
  else none

/-- First option if present, second otherwise. -/
def pickVal (a b : Option T) : Option T :=
  match a with
  | some v => some v
  | none => b

/-- The value the segment list stores at logical position `x` (first covering
segment in list order; the unique covering segment when the list is `Good`). -/
def listVal : List (Entry T) → Int → Option T
  | [], _ => none
  | e :: es, x => pickVal (entryVal e x) (listVal es x)

/-- Spec-side definition, following the claim wording for last-write-wins: the
value at position `x` after a sequence of writes is the one written by the
latest (highest write order) `Set` call whose range covers `x`. -/
def latestVal (ws : List (Int × List T)) (x : Int) : Option T :=
  ws.foldl
    (fun acc w =>
      if w.1 ≤ x ∧ x < w.1 + (w.2.length : Int) then w.2[(x - w.1).toNat]? else acc)
    none

/-- Adjacent-pair condition under which compaction leaves the pair alone: no
overlap, and if exactly touching then the combined span exceeds `minC`. -/
def stablePair (minC : Int) (a b : Entry T) : Prop :=
  a.offset + (a.data.length : Int) ≤ b.offset ∧
    (a.offset + (a.data.length : Int) = b.offset →
      minC < b.offset + (b.data.length : Int) - a.offset)

instance (minC : Int) : DecidableRel (stablePair (T := T) minC) := fun _ _ =>
  inferInstanceAs (Decidable (_ ∧ _))

/-- Segment lists on which compaction acts as the identity: adjacent segments
never overlap and every exactly-touching pair has combined span exceeding
`minC`. -/
def Stable (minC : Int) (es : List (Entry T)) : Prop :=
  List.Chain' (stablePair minC) es

/-- Executable check for `Stable`. -/
def stableB (minC : Int) : List (Entry T) → Bool
  | [] => true
  | [_] => true
  | a :: b :: es => decide (stablePair minC a b) && stableB minC (b :: es)

theorem stableB_iff (minC : Int) (es : List (Entry T)) :
    stableB minC es = true ↔ Stable minC es := by
  match es with
  | [] => simp [stableB, Stable]
  | [a] => simp [stableB, Stable]
  | a :: b :: es =>
    rw [Stable, List.chain'_cons]
    simp [stableB, stableB_iff minC (b :: es), Stable]

instance (minC : Int) (es : List (Entry T)) : Decidable (Stable minC es) :=
  decidable_of_iff _ (stableB_iff minC es)

/-! ### Basic lemmas about `overwrite`, `sizes`, `Good` and `Search` -/

theorem overwrite_length (dst : List T) (k : Nat) (src : List T) :
    (overwrite dst k src).length = dst.length := by
  simp only [overwrite, List.length_append, List.length_take, List.length_drop]
  omega

theorem overwrite_getElem? (dst : List T) (k : Nat) (src : List T) (i : Nat) :
    (overwrite dst k src)[i]? =
      if k ≤ i ∧ i < dst.length ∧ i < k + src.length then src[i - k]? else dst[i]? := by
  unfold overwrite
  rw [List.append_assoc, List.getElem?_append]
  rw [List.length_take]
  by_cases h1 : i < min k dst.length
  · rw [if_pos h1, List.getElem?_take, if_pos (by omega), if_neg (by omega)]
  · rw [if_neg h1, List.getElem?_append, List.length_take]
    by_cases h2 : i - min k dst.length < min (dst.length - k) src.length
    · rw [if_pos h2, List.getElem?_take, if_pos (by omega), if_pos (by omega)]
      congr 1
      omega
    · rw [if_neg h2, List.getElem?_drop]
      by_cases h3 : k ≤ i ∧ i < dst.length ∧ i < k + src.length
      · exact absurd h3 (by omega)
      · rw [if_neg h3]
        by_cases h4 : k ≤ dst.length ∧ src.length + k ≤ dst.length
        · congr 1
          omega
        · rw [List.getElem?_eq_none (l := dst) (by omega),
            List.getElem?_eq_none (l := dst) (by omega)]

theorem overwrite_nil_src (dst : List T) (k : Nat) : overwrite dst k [] = dst := by
  simp [overwrite]

theorem overwrite_nil_dst (k : Nat) (src : List T) : overwrite [] k src = [] := by
  simp [overwrite]

theorem sizes_nil : sizes ([] : List (Entry T)) = 0 := rfl

theorem sizes_cons (e : Entry T) (es : List (Entry T)) :
    sizes (e :: es) = (e.data.length : Int) + sizes es := by
  simp [sizes]

theorem sizes_nonneg (es : List (Entry T)) : 0 ≤ sizes es := by
  induction es with
  | nil => simp [sizes_nil]
  | cons e es ih => rw [sizes_cons]; positivity

/-- Every member of the tail of a `Good` list starts at or after the head's
end. -/
theorem good_head_le (a : Entry T) (l : List (Entry T)) (h : Good (a :: l)) :
    ∀ b ∈ l, a.offset + (a.data.length : Int) ≤ b.offset := by
  induction l generalizing a with
  | nil => intro b hb; cases hb
  | cons c l ih =>
    intro b hb
    rw [Good, List.chain'_cons] at h
    have h1 : a.offset + (a.data.length : Int) ≤ c.offset := h.1
    rcases List.mem_cons.mp hb with rfl | hb
    · exact h1
    · have h2 := ih c h.2 b hb
      have hlen : (0 : Int) ≤ (c.data.length : Int) := by positivity
      omega

theorem good_tail (a : Entry T) (l : List (Entry T)) (h : Good (a :: l)) : Good l :=
  (List.chain'_cons'.mp h).2

/-- In a `Good` concatenation, every left member ends at or before every right
member starts. -/
theorem good_append_le (A B : List (Entry T)) (h : Good (A ++ B)) :
    ∀ a ∈ A, ∀ b ∈ B, a.offset + (a.data.length : Int) ≤ b.offset := by
  induction A with
  | nil => intro a ha; cases ha
  | cons c A ih =>
    intro a ha b hb
    rcases List.mem_cons.mp ha with rfl | ha
    · exact good_head_le a (A ++ B) h b (by simp [hb])
    · exact ih (good_tail c _ h) a ha b hb

theorem good_of_append_left (A B : List (Entry T)) (h : Good (A ++ B)) : Good A :=
  (List.chain'_append.mp h).1

theorem good_of_append_right (A B : List (Entry T)) (h : Good (A ++ B)) : Good B :=
  (List.chain'_append.mp h).2.1

/-- Everything in the prefix cut off by `Search` starts strictly before `x`. -/
theorem search_take_lt (es : List (Entry T)) (x : Int) :
    ∀ e ∈ es.take (Search es x), e.offset < x := by
  induction es with
  | nil => intro e he; cases he
  | cons a es ih =>
    intro e he
    by_cases hx : x ≤ a.offset
    · simp only [Search, if_pos hx, List.take_zero] at he
      cases he
    · simp only [Search, if_neg hx, List.take_succ_cons] at he
      rcases List.mem_cons.mp he with rfl | he
      · omega
      · exact ih e he

/-- On a `Good` list, everything at or past the `Search` position starts at or
after `x`. -/
theorem search_drop_ge (es : List (Entry T)) (x : Int) (h : Good es) :
    ∀ e ∈ es.drop (Search es x), x ≤ e.offset := by
  induction es with
  | nil => intro e he; cases he
  | cons a es ih =>
    intro e he
    by_cases hx : x ≤ a.offset
    · simp only [Search, if_pos hx, List.drop_zero] at he
      rcases List.mem_cons.mp he with rfl | he
      · exact hx
      · have := good_head_le a es h e he
        have hlen : (0 : Int) ≤ (a.data.length : Int) := by positivity
        omega
    · simp only [Search, if_neg hx, List.drop_succ_cons] at he
      exact ih (good_tail a es h) e he

theorem insertAt_eq (l : List (Entry T)) (i : Nat) (a : Entry T) :
    insertAt l i a = l.take i ++ a :: l.drop i := rfl

/-! ### Structure of the compaction pass -/

theorem compactAux_ne_nil (minC : Int) (rest : List (Entry T)) :
    ∀ (cur : Entry T) (occ : Int), (compactAux minC cur rest occ).1 ≠ [] := by
  induction rest with
  | nil => intro cur occ; simp [compactAux]
  | cons nxt rest2 ih =>
    intro cur occ
    simp only [compactAux]
    split_ifs <;> first | exact ih _ _ | simp

theorem eq_of_mem_head_cons {y a : Entry T} {l : List (Entry T)}
    (hy : y ∈ (a :: l).head?) : y = a := by
  simp only [List.head?_cons, Option.mem_def, Option.some.injEq] at hy
  exact hy.symm

/-- The first entry output by the pass keeps the offset of the entry the pass
started from. -/
theorem compactAux_head (minC : Int) (rest : List (Entry T)) :
    ∀ (cur : Entry T) (occ : Int),
      ∀ y ∈ ((compactAux minC cur rest occ).1).head?, y.offset = cur.offset := by
  induction rest with
  | nil =>
    intro cur occ y hy
    simp only [compactAux, List.head?_cons, Option.mem_def, Option.some.injEq] at hy
    subst hy; rfl
  | cons nxt rest2 ih =>
    intro cur occ
    simp only [compactAux]
    split_ifs
    all_goals intro y hy
    all_goals
      first
      | (rw [eq_of_mem_head_cons hy])
      | (rw [ih _ _ y hy])

/-- One step of the compaction pass, abstracted over the behaviour of the
pass on the tail (`hrec`): handles the full branch analysis of an adjacent
pair.  `hPe` supplies, for every deeper entry, an end bound by either side of
the pair; this covers both the already-sorted tail case and the case where
the pair's right side is a freshly inserted (possibly overlapping) entry. -/
theorem compactAux_step (minC : Int) (cur nxt : Entry T) (rest2 : List (Entry T)) (occ : Int)
    (hrec : ∀ (c : Entry T) (o : Int), (∀ r ∈ rest2, c.offset ≤ r.offset) →
      Good (compactAux minC c rest2 o).1 ∧
        (compactAux minC c rest2 o).2 =
          o + sizes (compactAux minC c rest2 o).1 - ((c.data.length : Int) + sizes rest2) ∧
        ∀ lo hi : Int,
          (∀ e ∈ c :: rest2, lo ≤ e.offset ∧ e.offset + (e.data.length : Int) ≤ hi) →
          ∀ e ∈ (compactAux minC c rest2 o).1,
            lo ≤ e.offset ∧ e.offset + (e.data.length : Int) ≤ hi)
    (hcn : cur.offset ≤ nxt.offset)
    (hPc : ∀ r ∈ rest2, cur.offset ≤ r.offset)
    (hPn : ∀ r ∈ rest2, nxt.offset ≤ r.offset)
    (hPe : ∀ r ∈ rest2, cur.offset + (cur.data.length : Int) ≤ r.offset ∨
      nxt.offset + (nxt.data.length : Int) ≤ r.offset) :
    Good (compactAux minC cur (nxt :: rest2) occ).1 ∧
      (compactAux minC cur (nxt :: rest2) occ).2 =
        occ + sizes (compactAux minC cur (nxt :: rest2) occ).1 -
          ((cur.data.length : Int) + sizes (nxt :: rest2)) ∧
      ∀ lo hi : Int,
        (∀ e ∈ cur :: nxt :: rest2, lo ≤ e.offset ∧ e.offset + (e.data.length : Int) ≤ hi) →
        ∀ e ∈ (compactAux minC cur (nxt :: rest2) occ).1,
          lo ≤ e.offset ∧ e.offset + (e.data.length : Int) ≤ hi := by
  have hc0 : (0 : Int) ≤ (cur.data.length : Int) := by positivity
  have hn0 : (0 : Int) ≤ (nxt.data.length : Int) := by positivity
  simp only [compactAux]
  by_cases h1 : nxt.offset < cur.offset + (cur.data.length : Int)
  · rw [if_pos h1]
    by_cases h2 : nxt.offset + (nxt.data.length : Int) ≤ cur.offset + (cur.data.length : Int)
    · -- containment: next lies inside current and is dropped
      rw [if_pos h2]
      by_cases h3 : cur.order < nxt.order
      · rw [if_pos h3]
        obtain ⟨ihG, ihO, ihB⟩ :=
          hrec { cur with data := overwrite cur.data (nxt.offset - cur.offset).toNat nxt.data }
            (occ - (nxt.data.length : Int)) hPc
        have hlen : ((overwrite cur.data (nxt.offset - cur.offset).toNat nxt.data).length : Int)
            = (cur.data.length : Int) := by rw [overwrite_length]
        refine ⟨ihG, ?_, ?_⟩
        · rw [ihO, sizes_cons]
          simp only [hlen]
          ring
        · intro lo hi hin
          refine ihB lo hi ?_
          intro e he
          rcases List.mem_cons.mp he with rfl | he
          · have h := hin cur (List.mem_cons_self _ _)
            simpa [hlen] using h
          · exact hin e (List.mem_cons_of_mem _ (List.mem_cons_of_mem _ he))
      · rw [if_neg h3]
        obtain ⟨ihG, ihO, ihB⟩ := hrec cur (occ - (nxt.data.length : Int)) hPc
        refine ⟨ihG, ?_, ?_⟩
        · rw [ihO, sizes_cons]
          ring
        · intro lo hi hin
          refine ihB lo hi ?_
          intro e he
          rcases List.mem_cons.mp he with rfl | he
          · exact hin e (List.mem_cons_self _ _)
          · exact hin e (List.mem_cons_of_mem _ (List.mem_cons_of_mem _ he))
    · -- next extends past current: truncate the older side
      rw [if_neg h2]
      have hspan : nxt.offset - cur.offset ≤ (cur.data.length : Int) := by omega
      by_cases h3 : cur.order < nxt.order
      · rw [if_pos h3]
        have htk : ((cur.data.take (nxt.offset - cur.offset).toNat).length : Int)
            = nxt.offset - cur.offset := by
          rw [List.length_take]; omega
        by_cases h4 : nxt.offset + (nxt.data.length : Int) - cur.offset ≤ minC
        · rw [if_pos h4]
          obtain ⟨ihG, ihO, ihB⟩ :=
            hrec ⟨cur.order, cur.offset, cur.data.take (nxt.offset - cur.offset).toNat ++ nxt.data⟩
              (occ - (cur.offset + (cur.data.length : Int) - nxt.offset)) hPc
          have hlen : (((cur.data.take (nxt.offset - cur.offset).toNat ++ nxt.data).length : Nat) : Int)
              = nxt.offset - cur.offset + (nxt.data.length : Int) := by
            rw [List.length_append]; push_cast; rw [htk]
          refine ⟨ihG, ?_, ?_⟩
          · rw [ihO, sizes_cons]
            simp only [hlen]
            ring_nf
          · intro lo hi hin
            refine ihB lo hi ?_
            intro e he
            rcases List.mem_cons.mp he with rfl | he
            · have hcu := hin cur (List.mem_cons_self _ _)
              have hnx := hin nxt (List.mem_cons_of_mem _ (List.mem_cons_self _ _))
              constructor
              · exact hcu.1
              · simp only [hlen]
                omega
            · exact hin e (List.mem_cons_of_mem _ (List.mem_cons_of_mem _ he))
        · rw [if_neg h4]
          obtain ⟨ihG, ihO, ihB⟩ :=
            hrec nxt (occ - (cur.offset + (cur.data.length : Int) - nxt.offset)) hPn
          dsimp only
          refine ⟨?_, ?_, ?_⟩
          · rw [Good, List.chain'_cons']
            refine ⟨?_, ihG⟩
            intro y hy
            have hyo := compactAux_head minC rest2 nxt _ y hy
            simp only [entryLE, hyo, htk]
            omega
          · rw [ihO, sizes_cons, sizes_cons, htk]
            ring
          · intro lo hi hin
            intro e he
            rcases List.mem_cons.mp he with rfl | he
            · have hcu := hin cur (List.mem_cons_self _ _)
              have hnx := hin nxt (List.mem_cons_of_mem _ (List.mem_cons_self _ _))
              exact ⟨hcu.1, by simp only [htk]; omega⟩
            · refine ihB lo hi ?_ e he
              intro f hf
              rcases List.mem_cons.mp hf with rfl | hf
              · exact hin f (List.mem_cons_of_mem _ (List.mem_cons_self _ _))
              · exact hin f (List.mem_cons_of_mem _ (List.mem_cons_of_mem _ hf))
      · rw [if_neg h3]
        have hdr : ((nxt.data.drop (cur.offset + (cur.data.length : Int) - nxt.offset).toNat).length : Int)
            = nxt.offset + (nxt.data.length : Int) - (cur.offset + (cur.data.length : Int)) := by
          rw [List.length_drop]; omega
        by_cases h4 : nxt.offset + (nxt.data.length : Int) - cur.offset ≤ minC
        · rw [if_pos h4]
          obtain ⟨ihG, ihO, ihB⟩ :=
            hrec ⟨cur.order, cur.offset,
                cur.data ++ nxt.data.drop (cur.offset + (cur.data.length : Int) - nxt.offset).toNat⟩
              (occ - (cur.offset + (cur.data.length : Int) - nxt.offset)) hPc
          have hlen : (((cur.data ++
                nxt.data.drop (cur.offset + (cur.data.length : Int) - nxt.offset).toNat).length : Nat) : Int)
              = (cur.data.length : Int) +
                (nxt.offset + (nxt.data.length : Int) - (cur.offset + (cur.data.length : Int))) := by
            rw [List.length_append]; push_cast; rw [hdr]
          refine ⟨ihG, ?_, ?_⟩
          · rw [ihO, sizes_cons]
            simp only [hlen]
            ring_nf
          · intro lo hi hin
            refine ihB lo hi ?_
            intro e he
            rcases List.mem_cons.mp he with rfl | he
            · have hcu := hin cur (List.mem_cons_self _ _)
              have hnx := hin nxt (List.mem_cons_of_mem _ (List.mem_cons_self _ _))
              exact ⟨hcu.1, by simp only [hlen]; omega⟩
            · exact hin e (List.mem_cons_of_mem _ (List.mem_cons_of_mem _ he))
        · rw [if_neg h4]
          obtain ⟨ihG, ihO, ihB⟩ :=
            hrec ⟨nxt.order, cur.offset + (cur.data.length : Int),
                nxt.data.drop (cur.offset + (cur.data.length : Int) - nxt.offset).toNat⟩
              (occ - (cur.offset + (cur.data.length : Int) - nxt.offset))
              (fun r hr => by rcases hPe r hr with h | h <;> dsimp only <;> omega)
          dsimp only
          refine ⟨?_, ?_, ?_⟩
          · rw [Good, List.chain'_cons']
            refine ⟨?_, ihG⟩
            intro y hy
            have hyo := compactAux_head minC rest2 _ _ y hy
            simp only [entryLE, hyo]
            omega
          · rw [ihO, sizes_cons, sizes_cons]
            simp only [hdr]
            ring
          · intro lo hi hin
            intro e he
            rcases List.mem_cons.mp he with rfl | he
            · exact hin e (List.mem_cons_self _ _)
            · refine ihB lo hi ?_ e he
              intro f hf
              rcases List.mem_cons.mp hf with rfl | hf
              · have hcu := hin cur (List.mem_cons_self _ _)
                have hnx := hin nxt (List.mem_cons_of_mem _ (List.mem_cons_self _ _))
                exact ⟨by dsimp only; omega, by dsimp only; simp only [hdr]; omega⟩
              · exact hin f (List.mem_cons_of_mem _ (List.mem_cons_of_mem _ hf))
  · rw [if_neg h1]
    by_cases h5 : cur.offset + (cur.data.length : Int) = nxt.offset ∧
        nxt.offset + (nxt.data.length : Int) - cur.offset ≤ minC
    · rw [if_pos h5]
      obtain ⟨ihG, ihO, ihB⟩ :=
        hrec ⟨cur.order, cur.offset, cur.data ++ nxt.data⟩ occ hPc
      have hlen : (((cur.data ++ nxt.data).length : Nat) : Int)
          = (cur.data.length : Int) + (nxt.data.length : Int) := by
        rw [List.length_append]; push_cast; ring
      refine ⟨ihG, ?_, ?_⟩
      · rw [ihO, sizes_cons]
        simp only [hlen]
        ring
      · intro lo hi hin
        refine ihB lo hi ?_
        intro e he
        rcases List.mem_cons.mp he with rfl | he
        · have hcu := hin cur (List.mem_cons_self _ _)
          have hnx := hin nxt (List.mem_cons_of_mem _ (List.mem_cons_self _ _))
          exact ⟨hcu.1, by simp only [hlen]; omega⟩
        · exact hin e (List.mem_cons_of_mem _ (List.mem_cons_of_mem _ he))
    · rw [if_neg h5]
      obtain ⟨ihG, ihO, ihB⟩ := hrec nxt occ hPn
      dsimp only
      refine ⟨?_, ?_, ?_⟩
      · rw [Good, List.chain'_cons']
        refine ⟨?_, ihG⟩
        intro y hy
        have hyo := compactAux_head minC rest2 nxt occ y hy
        simp only [entryLE, hyo]
        omega
      · rw [ihO, sizes_cons, sizes_cons]
        ring
      · intro lo hi hin
        intro e he
        rcases List.mem_cons.mp he with rfl | he
        · exact hin e (List.mem_cons_self _ _)
        · refine ihB lo hi ?_ e he
          intro f hf
          rcases List.mem_cons.mp hf with rfl | hf
          · exact hin f (List.mem_cons_of_mem _ (List.mem_cons_self _ _))
          · exact hin f (List.mem_cons_of_mem _ (List.mem_cons_of_mem _ hf))

/-- The compaction pass on a `Good` tail whose entries start at or after
`cur.offset`: output is `Good`, occupancy moves by the size change, bounds are
preserved. -/
theorem compactAux_spec (minC : Int) (rest : List (Entry T)) :
    ∀ (cur : Entry T) (occ : Int), Good rest →
      (∀ r ∈ rest, cur.offset ≤ r.offset) →
      Good (compactAux minC cur rest occ).1 ∧
        (compactAux minC cur rest occ).2 =
          occ + sizes (compactAux minC cur rest occ).1 -
            ((cur.data.length : Int) + sizes rest) ∧
        ∀ lo hi : Int,
          (∀ e ∈ cur :: rest, lo ≤ e.offset ∧ e.offset + (e.data.length : Int) ≤ hi) →
          ∀ e ∈ (compactAux minC cur rest occ).1,
            lo ≤ e.offset ∧ e.offset + (e.data.length : Int) ≤ hi := by
  induction rest with
  | nil =>
    intro cur occ _ _
    refine ⟨List.chain'_singleton _, by simp [compactAux, sizes_cons, sizes_nil], ?_⟩
    intro lo hi hin e he
    simp only [compactAux, List.mem_singleton] at he
    subst he
    exact hin _ (List.mem_cons_self _ _)
  | cons nxt rest2 ih =>
    intro cur occ hG hP
    have hG2 : Good rest2 := good_tail _ _ hG
    have hnle : ∀ r ∈ rest2, nxt.offset + (nxt.data.length : Int) ≤ r.offset :=
      good_head_le _ _ hG
    have hn0 : (0 : Int) ≤ (nxt.data.length : Int) := by positivity
    exact compactAux_step minC cur nxt rest2 occ
      (fun c o hp => ih c o hG2 hp)
      (hP nxt (List.mem_cons_self _ _))
      (fun r hr => hP r (List.mem_cons_of_mem _ hr))
      (fun r hr => by have := hnle r hr; omega)
      (fun r hr => Or.inr (hnle r hr))

/-- The compaction pass on the list produced by inserting a fresh entry `E`
between the `Good` prefix `cur :: X` (everything at or before `E.offset`) and
the `Good` suffix `Y` (everything at or after `E.offset`), with the prefix
ending at or before every suffix entry: exactly the list shape `Set` builds.
Same conclusions as `compactAux_spec`. -/
theorem compactAux_insert_spec (minC : Int) (X : List (Entry T)) :
    ∀ (cur E : Entry T) (Y : List (Entry T)) (occ : Int),
      Good (cur :: X) → Good Y →
      (∀ a ∈ cur :: X, a.offset ≤ E.offset) →
      (∀ y ∈ Y, E.offset ≤ y.offset) →
      (∀ a ∈ cur :: X, ∀ y ∈ Y, a.offset + (a.data.length : Int) ≤ y.offset) →
      Good (compactAux minC cur (X ++ E :: Y) occ).1 ∧
        (compactAux minC cur (X ++ E :: Y) occ).2 =
          occ + sizes (compactAux minC cur (X ++ E :: Y) occ).1 -
            ((cur.data.length : Int) + sizes (X ++ E :: Y)) ∧
        ∀ lo hi : Int,
          (∀ e ∈ cur :: (X ++ E :: Y), lo ≤ e.offset ∧ e.offset + (e.data.length : Int) ≤ hi) →
          ∀ e ∈ (compactAux minC cur (X ++ E :: Y) occ).1,
            lo ≤ e.offset ∧ e.offset + (e.data.length : Int) ≤ hi := by
  induction X with
  | nil =>
    intro cur E Y occ hGX hGY hXE hEY hXY
    simp only [List.nil_append]
    exact compactAux_step minC cur E Y occ
      (fun c o hp => compactAux_spec minC Y c o hGY hp)
      (hXE cur (List.mem_cons_self _ _))
      (fun y hy => le_trans (hXE cur (List.mem_cons_self _ _)) (hEY y hy))
      hEY
      (fun y hy => Or.inl (hXY cur (List.mem_cons_self _ _) y hy))
  | cons x X2 ih =>
    intro cur E Y occ hGX hGY hXE hEY hXY
    have hpair : entryLE cur x ∧ List.Chain' entryLE (x :: X2) := List.chain'_cons.mp hGX
    have hcx : cur.offset + (cur.data.length : Int) ≤ x.offset := hpair.1
    have hx0 : (0 : Int) ≤ (x.data.length : Int) := by positivity
    simp only [List.cons_append, compactAux, List.append_eq]
    rw [if_neg (by omega)]
    by_cases hm : cur.offset + (cur.data.length : Int) = x.offset ∧
        x.offset + (x.data.length : Int) - cur.offset ≤ minC
    · rw [if_pos hm]
      have hGM : Good (⟨cur.order, cur.offset, cur.data ++ x.data⟩ :: X2) := by
        rw [Good, List.chain'_cons']
        refine ⟨?_, good_tail _ _ hpair.2⟩
        intro h hh
        have hxh := (List.chain'_cons'.mp hpair.2).1 h hh
        simp only [entryLE, List.length_append] at hxh ⊢
        push_cast
        omega
      obtain ⟨ihG, ihO, ihB⟩ := ih ⟨cur.order, cur.offset, cur.data ++ x.data⟩ E Y occ hGM hGY
        (fun a ha => by
          rcases List.mem_cons.mp ha with rfl | ha
          · exact hXE cur (List.mem_cons_self _ _)
          · exact hXE a (List.mem_cons_of_mem _ (List.mem_cons_of_mem _ ha)))
        hEY
        (fun a ha y hy => by
          rcases List.mem_cons.mp ha with rfl | ha
          · have := hXY x (List.mem_cons_of_mem _ (List.mem_cons_self _ _)) y hy
            simp only [List.length_append]
            push_cast
            omega
          · exact hXY a (List.mem_cons_of_mem _ (List.mem_cons_of_mem _ ha)) y hy)
      refine ⟨ihG, ?_, ?_⟩
      · rw [ihO]
        simp only [sizes_cons, List.length_append]
        push_cast
        ring
      · intro lo hi hin
        refine ihB lo hi ?_
        intro e he
        rcases List.mem_cons.mp he with rfl | he
        · have hcu := hin cur (List.mem_cons_self _ _)
          have hxx := hin x (List.mem_cons_of_mem _ (List.mem_cons_self _ _))
          refine ⟨hcu.1, ?_⟩
          simp only [List.length_append]
          push_cast
          omega
        · exact hin e (List.mem_cons_of_mem _ (List.mem_cons_of_mem _ he))
    · rw [if_neg hm]
      obtain ⟨ihG, ihO, ihB⟩ := ih x E Y occ hpair.2 hGY
        (fun a ha => hXE a (List.mem_cons_of_mem _ ha))
        hEY
        (fun a ha y hy => hXY a (List.mem_cons_of_mem _ ha) y hy)
      dsimp only
      refine ⟨?_, ?_, ?_⟩
      · rw [Good, List.chain'_cons']
        refine ⟨?_, ihG⟩
        intro y hy
        have hyo := compactAux_head minC (X2 ++ E :: Y) x occ y hy
        simp only [entryLE, hyo]
        omega
      · rw [ihO, sizes_cons, sizes_cons]
        ring
      · intro lo hi hin e he
        rcases List.mem_cons.mp he with rfl | he
        · exact hin e (List.mem_cons_self _ _)
        · refine ihB lo hi ?_ e he
          intro f hf
          rcases List.mem_cons.mp hf with rfl | hf
          · exact hin f (List.mem_cons_of_mem _ (List.mem_cons_self _ _))
          · exact hin f (List.mem_cons_of_mem _ (List.mem_cons_of_mem _ hf))

theorem sizes_append (A B : List (Entry T)) : sizes (A ++ B) = sizes A + sizes B := by
  induction A with
  | nil => simp [sizes_nil]
  | cons a A ih => simp only [List.cons_append, sizes_cons, ih]; ring

/-! ### `Set` preserves the structural invariants -/

/-- `Set` on a store with `Good` entries: the new entry list is `Good`, the
difference between the occupancy counter and the total stored size is
unchanged (so occupancy stays the exact size sum), and entry bounds that
cover both the old entries and the written range carry over. -/
theorem set_spec (s : Store T) (o : Int) (p : List T) (hG : Good s.entries) :
    Good ((s.Set o p).entries) ∧
      (s.Set o p).occupancy - sizes (s.Set o p).entries = s.occupancy - sizes s.entries ∧
      ∀ lo hi : Int,
        (∀ e ∈ s.entries, lo ≤ e.offset ∧ e.offset + (e.data.length : Int) ≤ hi) →
        lo ≤ o → o + (p.length : Int) ≤ hi →
        ∀ e ∈ (s.Set o p).entries, lo ≤ e.offset ∧ e.offset + (e.data.length : Int) ≤ hi := by
  have hsplit : s.entries =
      s.entries.take (Search s.entries o) ++ s.entries.drop (Search s.entries o) :=
    (List.take_append_drop _ _).symm
  have hA := search_take_lt s.entries o
  have hB := search_drop_ge s.entries o hG
  have hGA : Good (s.entries.take (Search s.entries o)) :=
    good_of_append_left _ _ (hsplit ▸ hG)
  have hGB : Good (s.entries.drop (Search s.entries o)) :=
    good_of_append_right _ _ (hsplit ▸ hG)
  have hABp : ∀ a ∈ s.entries.take (Search s.entries o),
      ∀ b ∈ s.entries.drop (Search s.entries o),
      a.offset + (a.data.length : Int) ≤ b.offset :=
    good_append_le _ _ (hsplit ▸ hG)
  unfold Store.Set
  rw [insertAt_eq]
  cases hcase : s.entries.take (Search s.entries o) with
  | nil =>
    rw [hcase] at hsplit
    simp only [hcase, List.nil_append]
    unfold Store.compact
    dsimp only
    obtain ⟨cG, cO, cB⟩ :=
      compactAux_spec s.minContiguous (s.entries.drop (Search s.entries o))
        ⟨s.insertCount, o, p⟩ (s.occupancy + (p.length : Int)) hGB (fun b hb => hB b hb)
    have hsz : sizes s.entries = sizes (s.entries.drop (Search s.entries o)) := by
      rw [List.nil_append] at hsplit
      exact congrArg sizes hsplit
    refine ⟨cG, ?_, ?_⟩
    · rw [cO]
      dsimp only
      rw [hsz]
      ring
    · intro lo hi hin hlo hhi e he
      refine cB lo hi ?_ e he
      intro f hf
      rcases List.mem_cons.mp hf with rfl | hf
      · exact ⟨hlo, hhi⟩
      · exact hin f (hsplit ▸ hf)
  | cons a A2 =>
    rw [hcase] at hsplit hGA hA hABp
    simp only [hcase, List.cons_append]
    unfold Store.compact
    try dsimp only
    obtain ⟨cG, cO, cB⟩ :=
      compactAux_insert_spec s.minContiguous A2 a ⟨s.insertCount, o, p⟩
        (s.entries.drop (Search s.entries o)) (s.occupancy + (p.length : Int)) hGA hGB
        (fun x hx => le_of_lt (hA x hx))
        (fun y hy => hB y hy)
        (fun x hx y hy => hABp x hx y hy)
    have hsz : sizes s.entries =
        sizes (a :: A2) + sizes (s.entries.drop (Search s.entries o)) := by
      rw [congrArg sizes hsplit, sizes_append]
    refine ⟨cG, ?_, ?_⟩
    · rw [cO]
      simp only [hsz, sizes_append, sizes_cons]
      ring
    · intro lo hi hin hlo hhi e he
      refine cB lo hi ?_ e he
      intro f hf
      rcases List.mem_cons.mp hf with rfl | hf
      · exact hin f (hsplit ▸ List.mem_cons_self _ _)
      · rcases List.mem_append.mp hf with hf | hf
        · exact hin f (hsplit ▸ List.mem_cons_of_mem _ (List.mem_append_left _ hf))
        · rcases List.mem_cons.mp hf with rfl | hf
          · exact ⟨hlo, hhi⟩
          · exact hin f (hsplit ▸ List.mem_cons_of_mem _ (List.mem_append_right _ hf))

theorem set_length (s : Store T) (o : Int) (p : List T) :
    (s.Set o p).length = max s.length (o + (p.length : Int)) := by
  unfold Store.Set Store.compact
  split
  · dsimp only
    split <;> omega
  · dsimp only
    split <;> omega

theorem set_minContiguous (s : Store T) (o : Int) (p : List T) :
    (s.Set o p).minContiguous = s.minContiguous := by
  unfold Store.Set Store.compact
  split
  · rfl
  · rfl

/-! ### Reachable stores -/

theorem applyWrites_good (ws : List (Int × List T)) :
    ∀ s : Store T, Good s.entries → Good (applyWrites s ws).entries := by
  induction ws with
  | nil => intro s hG; exact hG
  | cons w ws ih =>
    intro s hG
    exact ih _ (set_spec s w.1 w.2 hG).1

theorem applyWrites_occ (ws : List (Int × List T)) :
    ∀ s : Store T, Good s.entries →
      (applyWrites s ws).occupancy - sizes (applyWrites s ws).entries =
        s.occupancy - sizes s.entries := by
  induction ws with
  | nil => intro s _; rfl
  | cons w ws ih =>
    intro s hG
    rw [applyWrites, ih _ (set_spec s w.1 w.2 hG).1, (set_spec s w.1 w.2 hG).2.1]

/-- For a `Good` list of segments whose offsets are at least `lo` and whose
ends are at most `hi`, the total size fits in `hi - lo`. -/
theorem sizes_le_of_good (es : List (Entry T)) :
    ∀ lo hi : Int, Good es → lo ≤ hi →
      (∀ e ∈ es, lo ≤ e.offset ∧ e.offset + (e.data.length : Int) ≤ hi) →
      sizes es ≤ hi - lo := by
  induction es with
  | nil => intro lo hi _ hlh _; rw [sizes_nil]; omega
  | cons e es ih =>
    intro lo hi hG hlh hin
    have he := hin e (List.mem_cons_self _ _)
    have hfol := good_head_le e es hG
    have htail := ih (e.offset + (e.data.length : Int)) hi (good_tail _ _ hG) he.2
      (fun f hf => ⟨hfol f hf, (hin f (List.mem_cons_of_mem _ hf)).2⟩)
    rw [sizes_cons]
    omega

/-- `Set` with a non-negative offset preserves the `Bounded` invariant (all
segments within `[0, length]`, and `0 ≤ length`). -/
theorem set_bounded (s : Store T) (o : Int) (p : List T) (hG : Good s.entries)
    (ho : 0 ≤ o)
    (hbd : ∀ e ∈ s.entries, 0 ≤ e.offset ∧ e.offset + (e.data.length : Int) ≤ s.length)
    (hlen : 0 ≤ s.length) :
    (∀ e ∈ (s.Set o p).entries,
      0 ≤ e.offset ∧ e.offset + (e.data.length : Int) ≤ (s.Set o p).length) ∧
      0 ≤ (s.Set o p).length := by
  have hL := set_length s o p
  have hp0 : (0 : Int) ≤ (p.length : Int) := by positivity
  refine ⟨?_, by omega⟩
  refine (set_spec s o p hG).2.2 0 ((s.Set o p).length) ?_ ho ?_
  · intro e he
    have := hbd e he
    omega
  · omega

theorem applyWrites_bounded (ws : List (Int × List T)) :
    ∀ s : Store T, Good s.entries →
      (∀ e ∈ s.entries, 0 ≤ e.offset ∧ e.offset + (e.data.length : Int) ≤ s.length) →
      0 ≤ s.length → (∀ w ∈ ws, 0 ≤ w.1) →
      (∀ e ∈ (applyWrites s ws).entries,
        0 ≤ e.offset ∧ e.offset + (e.data.length : Int) ≤ (applyWrites s ws).length) ∧
        0 ≤ (applyWrites s ws).length := by
  induction ws with
  | nil => intro s _ hbd hl _; exact ⟨hbd, hl⟩
  | cons w ws ih =>
    intro s hG hbd hl hw
    have hb := set_bounded s w.1 w.2 hG (hw w (List.mem_cons_self _ _)) hbd hl
    exact ih _ (set_spec s w.1 w.2 hG).1 hb.1 hb.2
      (fun v hv => hw v (List.mem_cons_of_mem _ hv))

theorem applyWrites_length (ws : List (Int × List T)) :
    ∀ s : Store T,
      (applyWrites s ws).length =
        ws.foldl (fun L w => max L (w.1 + (w.2.length : Int))) s.length := by
  induction ws with
  | nil => intro s; rfl
  | cons w ws ih =>
    intro s
    rw [applyWrites, ih, List.foldl_cons, set_length]

/-- On a `Stable` tail the compaction pass is the identity: it never merges a
pair separated by a gap, and never merges a touching pair whose combined span
exceeds `minC`. -/
theorem compactAux_stable (minC : Int) (rest : List (Entry T)) :
    ∀ (cur : Entry T) (occ : Int), Stable minC (cur :: rest) →
      compactAux minC cur rest occ = (cur :: rest, occ) := by
  induction rest with
  | nil => intro cur occ _; rfl
  | cons nxt rest2 ih =>
    intro cur occ hS
    have hp : stablePair minC cur nxt ∧ List.Chain' (stablePair minC) (nxt :: rest2) :=
      List.chain'_cons.mp hS
    have hsp : cur.offset + (cur.data.length : Int) ≤ nxt.offset ∧
        (cur.offset + (cur.data.length : Int) = nxt.offset →
          minC < nxt.offset + (nxt.data.length : Int) - cur.offset) := hp.1
    simp only [compactAux]
    rw [if_neg (by omega), if_neg ?hmerge]
    case hmerge =>
      rintro ⟨ht, hsm⟩
      have := hsp.2 ht
      omega
    rw [ih nxt occ hp.2]

/-! ### The `Has` and `Get` scan loops -/

theorem hasLoop_ge (offset length : Int) (es : List (Entry T)) :
    ∀ ct : Int, offset ≤ ct → offset ≤ hasLoop offset length es ct := by
  induction es with
  | nil => intro ct h; exact h
  | cons e es ih =>
    intro ct h
    simp only [hasLoop]
    split_ifs with h1 h2
    · exact ih ct h
    · exact h
    · exact ih _ (by omega)

theorem getLoop_fst_length (offset : Int) (es : List (Entry T)) :
    ∀ (p : List T) (ct : Int) (b : Bool), (getLoop offset es p ct b).1.length = p.length := by
  induction es with
  | nil => intro p ct b; rfl
  | cons e es ih =>
    intro p ct b
    simp only [getLoop]
    split_ifs
    all_goals first
      | rfl
      | exact ih _ _ _
      | (rw [ih, overwrite_length])

theorem getLoop_false (offset : Int) (es : List (Entry T)) :
    ∀ (p : List T) (ct : Int), (getLoop offset es p ct false).2.2 = false := by
  induction es with
  | nil => intro p ct; rfl
  | cons e es ih =>
    intro p ct
    simp only [getLoop]
    split_ifs
    all_goals first
      | rfl
      | exact ih _ _

theorem getLoop_nil_buffer (offset : Int) (es : List (Entry T)) :
    ∀ ct : Int, offset ≤ ct →
      (getLoop offset es [] ct true).1 = [] ∧
        (getLoop offset es [] ct true).2.2 = true ∧
        offset ≤ (getLoop offset es [] ct true).2.1 := by
  induction es with
  | nil => intro ct h; exact ⟨rfl, rfl, h⟩
  | cons e es ih =>
    intro ct h
    simp only [getLoop, List.length_nil, Nat.cast_zero, add_zero]
    by_cases h1 : e.offset + (e.data.length : Int) < offset
    · rw [if_pos h1]
      exact ih ct h
    · rw [if_neg h1]
      by_cases h2 : offset < e.offset
      · rw [if_pos h2]
        exact ⟨rfl, rfl, h⟩
      · rw [if_neg h2, if_neg (by omega : ¬ ct < e.offset),
          overwrite_nil_dst, overwrite_nil_dst, ite_self]
        exact ih _ (by omega)

/-- C2 core: the completeness boolean computed by the `Get` scan equals the
one computed by the `Has` scan, from any shared loop state. -/
theorem getLoop_hasLoop (offset : Int) (es : List (Entry T)) :
    ∀ (p : List T) (ct : Int),
      ((getLoop offset es p ct true).2.2 &&
          decide (offset + (((getLoop offset es p ct true).1.length : Nat) : Int) ≤
            (getLoop offset es p ct true).2.1)) =
        decide (offset + (p.length : Int) ≤ hasLoop offset (p.length : Int) es ct) := by
  induction es with
  | nil => intro p ct; simp [getLoop, hasLoop]
  | cons e es ih =>
    intro p ct
    simp only [getLoop, hasLoop]
    by_cases h1 : e.offset + (e.data.length : Int) < offset
    · simp only [if_pos h1]
      exact ih p ct
    · simp only [if_neg h1]
      by_cases h2 : offset + (p.length : Int) < e.offset
      · simp only [if_pos h2,
          if_pos (show offset + (p.length : Int) < e.offset ∨ ct < e.offset from Or.inl h2)]
        simp
      · simp only [if_neg h2]
        by_cases h3 : ct < e.offset
        · simp only [if_pos (show offset + (p.length : Int) < e.offset ∨ ct < e.offset
              from Or.inr h3), if_pos h3, getLoop_false]
          simp only [Bool.false_and]
          symm
          simp only [decide_eq_false_iff_not]
          omega
        · simp only [if_neg (show ¬(offset + (p.length : Int) < e.offset ∨ ct < e.offset)
              by tauto), if_neg h3]
          have hlen : (if e.offset - offset < 0
              then overwrite p 0 (e.data.drop (offset - e.offset).toNat)
              else overwrite p (e.offset - offset).toNat e.data).length = p.length := by
            split <;> rw [overwrite_length]
          have hih := ih (if e.offset - offset < 0
              then overwrite p 0 (e.data.drop (offset - e.offset).toNat)
              else overwrite p (e.offset - offset).toNat e.data)
            (e.offset + (e.data.length : Int))
          rw [hlen] at hih
          exact hih

/-! ### `Get` buffer characterization -/

theorem pickVal_some (v : T) (b : Option T) : pickVal (some v) b = some v := rfl

theorem pickVal_none (b : Option T) : pickVal none b = b := rfl

theorem listVal_cons (e : Entry T) (es : List (Entry T)) (x : Int) :
    listVal (e :: es) x = pickVal (entryVal e x) (listVal es x) := rfl

theorem entryVal_none_left (e : Entry T) (x : Int) (h : x < e.offset) :
    entryVal e x = none := by
  rw [entryVal, if_neg]
  rintro ⟨ha, _⟩
  omega

theorem entryVal_none_right (e : Entry T) (x : Int)
    (h : e.offset + (e.data.length : Int) ≤ x) : entryVal e x = none := by
  rw [entryVal, if_neg]
  rintro ⟨_, hb⟩
  omega

theorem listVal_none_of_lt (es : List (Entry T)) (x : Int)
    (h : ∀ f ∈ es, x < f.offset) : listVal es x = none := by
  induction es with
  | nil => rfl
  | cons e es ih =>
    rw [listVal_cons, entryVal_none_left e x (h e (List.mem_cons_self _ _)), pickVal_none]
    exact ih (fun f hf => h f (List.mem_cons_of_mem _ hf))

/-- The single buffer-update step of the `Get` scan writes exactly the
positions the entry covers, with the entry's values. -/
theorem getStep_buffer (offset : Int) (e : Entry T) (p : List T) (i : Nat)
    (hip : i < p.length) (h1 : ¬ e.offset + (e.data.length : Int) < offset)
    (h2 : ¬ offset + (p.length : Int) < e.offset) :
    (if e.offset - offset < 0
        then overwrite p 0 (e.data.drop (offset - e.offset).toNat)
        else overwrite p (e.offset - offset).toNat e.data)[i]? =
      pickVal (entryVal e (offset + (i : Int))) p[i]? := by
  have hi0 : (0 : Int) ≤ (i : Int) := by positivity
  by_cases hd : e.offset - offset < 0
  · rw [if_pos hd, overwrite_getElem?]
    by_cases hcov : offset + (i : Int) < e.offset + (e.data.length : Int)
    · have hcond : 0 ≤ i ∧ i < p.length ∧
          i < 0 + (e.data.drop (offset - e.offset).toNat).length := by
        refine ⟨Nat.zero_le i, hip, ?_⟩
        rw [List.length_drop]
        omega
      rw [if_pos hcond, List.getElem?_drop, Nat.sub_zero]
      rw [entryVal, if_pos (show e.offset ≤ offset + (i : Int) ∧
          offset + (i : Int) < e.offset + (e.data.length : Int) from ⟨by omega, hcov⟩)]
      have hidx : (offset - e.offset).toNat + i = (offset + (i : Int) - e.offset).toNat := by
        omega
      rw [hidx, List.getElem?_eq_getElem (show (offset + (i : Int) - e.offset).toNat
          < e.data.length by omega), pickVal_some]
    · rw [entryVal_none_right e _ (by omega), pickVal_none]
      rw [if_neg]
      rintro ⟨_, _, hlt⟩
      rw [List.length_drop] at hlt
      omega
  · rw [if_neg hd, overwrite_getElem?]
    by_cases hcov : e.offset ≤ offset + (i : Int) ∧
        offset + (i : Int) < e.offset + (e.data.length : Int)
    · have hcond : (e.offset - offset).toNat ≤ i ∧ i < p.length ∧
          i < (e.offset - offset).toNat + e.data.length := by
        refine ⟨by omega, hip, by omega⟩
      rw [if_pos hcond]
      rw [entryVal, if_pos hcov]
      have hidx : i - (e.offset - offset).toNat = (offset + (i : Int) - e.offset).toNat := by
        omega
      rw [hidx, List.getElem?_eq_getElem (show (offset + (i : Int) - e.offset).toNat
          < e.data.length by omega), pickVal_some]
    · rw [entryVal, if_neg hcov, pickVal_none]
      rw [if_neg]
      rintro ⟨hge, _, hlt⟩
      omega

/-- The `Get` scan fills the buffer pointwise from the (unique, by `Good`)
covering segment, leaving unbacked positions unchanged. -/
theorem getLoop_buffer (offset : Int) (es : List (Entry T)) :
    ∀ (p : List T) (ct : Int) (b : Bool), Good es → ∀ i : Nat, i < p.length →
      ((getLoop offset es p ct b).1)[i]? =
        pickVal (listVal es (offset + (i : Int))) p[i]? := by
  induction es with
  | nil => intro p ct b _ i hi; simp [getLoop, listVal, pickVal]
  | cons e es ih =>
    intro p ct b hG i hi
    have hes := good_head_le e es hG
    have hGt := good_tail _ _ hG
    have hi0 : (0 : Int) ≤ (i : Int) := by positivity
    have he0 : (0 : Int) ≤ (e.data.length : Int) := by positivity
    simp only [getLoop]
    by_cases h1 : e.offset + (e.data.length : Int) < offset
    · rw [if_pos h1, ih p ct b hGt i hi, listVal_cons,
        entryVal_none_right e _ (by omega), pickVal_none]
    · rw [if_neg h1]
      by_cases h2 : offset + (p.length : Int) < e.offset
      · rw [if_pos h2]
        rw [listVal_none_of_lt (e :: es) _ ?hoff, pickVal_none]
        case hoff =>
          intro f hf
          rcases List.mem_cons.mp hf with rfl | hf
          · omega
          · have hef := hes f hf
            omega
      · rw [if_neg h2]
        have hlen : (if e.offset - offset < 0
            then overwrite p 0 (e.data.drop (offset - e.offset).toNat)
            else overwrite p (e.offset - offset).toNat e.data).length = p.length := by
          split <;> rw [overwrite_length]
        rw [ih _ _ _ hGt i (by rw [hlen]; exact hi)]
        rw [getStep_buffer offset e p i hi h1 h2]
        rw [listVal_cons]
        cases hev : entryVal e (offset + (i : Int)) with
        | none => rw [pickVal_none, pickVal_none]
        | some v =>
          have hcov : offset + (i : Int) < e.offset + (e.data.length : Int) := by
            by_contra hc
            rw [entryVal_none_right e _ (by omega)] at hev
            cases hev
          rw [pickVal_some,
            listVal_none_of_lt es _ (fun f hf => by have := hes f hf; omega)]
          rfl

theorem pickVal_isSome (a b : Option T) (hb : b.isSome = true) :
    (pickVal a b).isSome = true := by
  cases a with
  | none => exact hb
  | some v => rfl

/-- Coverage characterization of the `Has` scan on a `Good` list.  The last
hypothesis is the loop invariant relating `completeTo` to the remaining
entries: every remaining entry either lies entirely before the requested
offset (it will be skipped) or, if it starts at or before `completeTo`, it
also ends at or after it. -/
theorem hasLoop_correct (offset length : Int) (es : List (Entry T)) :
    ∀ ct : Int, Good es → offset ≤ ct →
      (∀ f ∈ es, f.offset + (f.data.length : Int) < offset ∨
        (f.offset ≤ ct → ct ≤ f.offset + (f.data.length : Int))) →
      (offset + length ≤ hasLoop offset length es ct ↔
        ∀ x : Int, ct ≤ x → x < offset + length → (listVal es x).isSome = true) := by
  induction es with
  | nil =>
    intro ct _ hoc _
    simp only [hasLoop]
    constructor
    · intro h x hx1 hx2
      exact (by omega : False).elim
    · intro h
      by_contra hc
      push_neg at hc
      have := h ct le_rfl (by omega)
      simp [listVal] at this
  | cons e es ih =>
    intro ct hG hoc hQ
    have hes := good_head_le e es hG
    have hGt := good_tail _ _ hG
    have he0 : (0 : Int) ≤ (e.data.length : Int) := by positivity
    simp only [hasLoop]
    by_cases h1 : e.offset + (e.data.length : Int) < offset
    · rw [if_pos h1,
        ih ct hGt hoc (fun f hf => hQ f (List.mem_cons_of_mem _ hf))]
      constructor
      · intro h x hx1 hx2
        rw [listVal_cons, entryVal_none_right e _ (by omega), pickVal_none]
        exact h x hx1 hx2
      · intro h x hx1 hx2
        have hx := h x hx1 hx2
        rw [listVal_cons, entryVal_none_right e _ (by omega), pickVal_none] at hx
        exact hx
    · rw [if_neg h1]
      by_cases h2 : offset + length < e.offset ∨ ct < e.offset
      · rw [if_pos h2]
        constructor
        · intro h x hx1 hx2
          exact (by omega : False).elim
        · intro h
          by_contra hc
          push_neg at hc
          have hclt : ct < e.offset := by rcases h2 with h2 | h2 <;> omega
          have hx := h ct le_rfl (by omega)
          rw [listVal_none_of_lt (e :: es) ct ?hall] at hx
          case hall =>
            intro f hf
            rcases List.mem_cons.mp hf with rfl | hf
            · exact hclt
            · have := hes f hf
              omega
          simp at hx
      · rw [if_neg h2]
        push_neg at h2
        have hct : ct ≤ e.offset + (e.data.length : Int) := by
          rcases hQ e (List.mem_cons_self _ _) with hq | hq
          · omega
          · exact hq h2.2
        rw [ih (e.offset + (e.data.length : Int)) hGt (by omega)
          (fun f hf => Or.inr (fun hfo => by have := hes f hf; omega))]
        constructor
        · intro h x hx1 hx2
          by_cases hxe : x < e.offset + (e.data.length : Int)
          · rw [listVal_cons, entryVal, if_pos (⟨by omega, hxe⟩ :
              e.offset ≤ x ∧ x < e.offset + (e.data.length : Int))]
            rw [List.getElem?_eq_getElem (by omega), pickVal_some]
            rfl
          · have hx := h x (by omega) hx2
            rw [listVal_cons]
            exact pickVal_isSome _ _ hx
        · intro h x hx1 hx2
          have hx := h x (by omega) hx2
          rw [listVal_cons, entryVal_none_right e _ (by omega), pickVal_none] at hx
          exact hx

/-- On a `Good` store, `Has` decides exactly full coverage of the requested
range. -/
theorem has_correct (s : Store T) (hG : Good s.entries) (o n : Int) :
    s.Has o n = true ↔
      ∀ x : Int, o ≤ x → x < o + n → (listVal s.entries x).isSome = true := by
  unfold Store.Has
  by_cases h0 : s.entries.length = 0 ∧ 0 < n
  · rw [if_pos h0]
    have hnil : s.entries = [] := List.eq_nil_of_length_eq_zero h0.1
    constructor
    · intro h
      cases h
    · intro h
      have hx := h o le_rfl (by omega)
      rw [hnil] at hx
      simp [listVal] at hx
  · rw [if_neg h0, decide_eq_true_eq]
    refine hasLoop_correct o n s.entries o hG le_rfl ?_
    intro f hf
    by_cases hfe : f.offset + (f.data.length : Int) < o
    · exact Or.inl hfe
    · exact Or.inr (fun _ => by omega)

/-! ### The empty write is observationally a no-op -/

theorem pickVal_assoc (a b c : Option T) :
    pickVal (pickVal a b) c = pickVal a (pickVal b c) := by
  cases a with
  | none => rfl
  | some v => rfl

theorem entryVal_empty (e : Entry T) (x : Int) (h : e.data = []) : entryVal e x = none := by
  rw [entryVal, if_neg]
  rw [h]
  simp only [List.length_nil, Nat.cast_zero, add_zero]
  rintro ⟨h1, h2⟩
  omega

/-- Merging an exactly-touching pair does not change the stored value at any
position. -/
theorem entryVal_merge (ord : Int) (a b : Entry T) (x : Int)
    (ht : a.offset + (a.data.length : Int) = b.offset) :
    entryVal (⟨ord, a.offset, a.data ++ b.data⟩ : Entry T) x =
      pickVal (entryVal a x) (entryVal b x) := by
  have ha0 : (0 : Int) ≤ (a.data.length : Int) := by positivity
  have hb0 : (0 : Int) ≤ (b.data.length : Int) := by positivity
  unfold entryVal
  dsimp only
  rw [List.length_append]
  push_cast
  by_cases hax : a.offset ≤ x ∧ x < a.offset + (a.data.length : Int)
  · rw [if_pos hax, if_pos (show a.offset ≤ x ∧
        x < a.offset + ((a.data.length : Int) + (b.data.length : Int)) from ⟨hax.1, by omega⟩)]
    rw [List.getElem?_append, if_pos (by omega)]
    rw [List.getElem?_eq_getElem (show (x - a.offset).toNat < a.data.length by omega),
      pickVal_some]
  · rw [if_neg hax]
    push_neg at hax
    by_cases hbx : b.offset ≤ x ∧ x < b.offset + (b.data.length : Int)
    · rw [if_pos hbx, if_pos (show a.offset ≤ x ∧
          x < a.offset + ((a.data.length : Int) + (b.data.length : Int)) from
            ⟨by omega, by omega⟩)]
      rw [List.getElem?_append_right (by omega), pickVal_none]
      congr 1
      omega
    · rw [if_neg hbx]
      push_neg at hbx
      rw [if_neg]
      · rfl
      · rintro ⟨h1, h2⟩
        rcases lt_or_le x b.offset with hxb | hxb
        · exact absurd (hax h1) (by omega)
        · exact absurd (hbx hxb) (by omega)

theorem listVal_merge (ord : Int) (a b : Entry T) (es : List (Entry T)) (x : Int)
    (ht : a.offset + (a.data.length : Int) = b.offset) :
    listVal ((⟨ord, a.offset, a.data ++ b.data⟩ : Entry T) :: es) x =
      listVal (a :: b :: es) x := by
  rw [listVal_cons, listVal_cons, listVal_cons, entryVal_merge ord a b x ht, pickVal_assoc]

/-- On a fully `Good` input (head included) the compaction pass can only
perform touching merges: the output is `Good`, occupancy is untouched, and
the stored value at every position is unchanged. -/
theorem compactAux_nooverlap (minC : Int) (rest : List (Entry T)) :
    ∀ (cur : Entry T) (occ : Int), Good (cur :: rest) →
      Good (compactAux minC cur rest occ).1 ∧
        (compactAux minC cur rest occ).2 = occ ∧
        ∀ x : Int, listVal (compactAux minC cur rest occ).1 x = listVal (cur :: rest) x := by
  induction rest with
  | nil => intro cur occ h; exact ⟨h, rfl, fun _ => rfl⟩
  | cons nxt rest2 ih =>
    intro cur occ hG
    have hpair : entryLE cur nxt ∧ List.Chain' entryLE (nxt :: rest2) := List.chain'_cons.mp hG
    have hcn : cur.offset + (cur.data.length : Int) ≤ nxt.offset := hpair.1
    simp only [compactAux]
    rw [if_neg (by omega)]
    by_cases hm : cur.offset + (cur.data.length : Int) = nxt.offset ∧
        nxt.offset + (nxt.data.length : Int) - cur.offset ≤ minC
    · rw [if_pos hm]
      have hGM : Good ((⟨cur.order, cur.offset, cur.data ++ nxt.data⟩ : Entry T) :: rest2) := by
        rw [Good, List.chain'_cons']
        refine ⟨?_, good_tail _ _ hpair.2⟩
        intro h hh
        have hxh := (List.chain'_cons'.mp hpair.2).1 h hh
        simp only [entryLE, List.length_append] at hxh ⊢
        push_cast
        omega
      obtain ⟨iG, iO, iV⟩ := ih ⟨cur.order, cur.offset, cur.data ++ nxt.data⟩ occ hGM
      refine ⟨iG, iO, ?_⟩
      intro x
      rw [iV x, listVal_merge cur.order cur nxt rest2 x hm.1]
    · rw [if_neg hm]
      obtain ⟨iG, iO, iV⟩ := ih nxt occ hpair.2
      dsimp only
      refine ⟨?_, iO, ?_⟩
      · rw [Good, List.chain'_cons']
        refine ⟨?_, iG⟩
        intro y hy
        have hyo := compactAux_head minC rest2 nxt occ y hy
        simp only [entryLE, hyo]
        omega
      · intro x
        rw [listVal_cons, listVal_cons, iV x]

/-- The compaction pass after inserting an entry with empty data into a
`Good` list: the output is `Good`, occupancy is unchanged, and the stored
value at every position is that of the original list. -/
theorem compactAux_insert_empty (minC : Int) (X : List (Entry T)) :
    ∀ (cur : Entry T) (Eord Eoff : Int) (Y : List (Entry T)) (occ : Int),
      Good (cur :: (X ++ Y)) →
      (∀ a ∈ cur :: X, a.offset ≤ Eoff) →
      (∀ y ∈ Y, Eoff ≤ y.offset) →
      Good (compactAux minC cur (X ++ (⟨Eord, Eoff, []⟩ : Entry T) :: Y) occ).1 ∧
        (compactAux minC cur (X ++ (⟨Eord, Eoff, []⟩ : Entry T) :: Y) occ).2 = occ ∧
        ∀ x : Int, listVal (compactAux minC cur (X ++ (⟨Eord, Eoff, []⟩ : Entry T) :: Y) occ).1 x =
          listVal (cur :: (X ++ Y)) x := by
  induction X with
  | nil =>
    intro cur Eord Eoff Y occ hGXY hXE hEY
    simp only [List.nil_append] at hGXY ⊢
    have hcE : cur.offset ≤ Eoff := hXE cur (List.mem_cons_self _ _)
    have hc0 : (0 : Int) ≤ (cur.data.length : Int) := by positivity
    have hEvalnone : ∀ x : Int,
        entryVal (⟨Eord, Eoff, []⟩ : Entry T) x = none :=
      fun x => entryVal_empty _ x rfl
    simp only [compactAux, List.length_nil, Nat.cast_zero, add_zero]
    by_cases h1 : Eoff < cur.offset + (cur.data.length : Int)
    · rw [if_pos h1, if_pos (by omega : Eoff ≤ cur.offset + (cur.data.length : Int))]
      have hcur : (if cur.order < Eord then
          { cur with data := overwrite cur.data (Eoff - cur.offset).toNat [] } else cur) = cur := by
        rw [overwrite_nil_src]
        split <;> rfl
      obtain ⟨iG, iO, iV⟩ := compactAux_nooverlap minC Y cur (occ - 0) hGXY
      rw [hcur]
      refine ⟨iG, by rw [iO]; ring, ?_⟩
      intro x
      rw [iV x]
    · rw [if_neg h1]
      by_cases hm : cur.offset + (cur.data.length : Int) = Eoff ∧
          Eoff - cur.offset ≤ minC
      · rw [if_pos hm]
        have hM : (⟨cur.order, cur.offset, cur.data ++ []⟩ : Entry T) = cur := by
          rw [List.append_nil]
        rw [hM]
        exact compactAux_nooverlap minC Y cur occ hGXY
      · rw [if_neg hm]
        have hGE : Good ((⟨Eord, Eoff, []⟩ : Entry T) :: Y) := by
          rw [Good, List.chain'_cons']
          refine ⟨?_, good_tail _ _ hGXY⟩
          intro y hy
          have hym : y ∈ Y := List.mem_of_mem_head? hy
          simp only [entryLE, List.length_nil, Nat.cast_zero, add_zero]
          exact hEY y hym
        obtain ⟨iG, iO, iV⟩ := compactAux_nooverlap minC Y ⟨Eord, Eoff, []⟩ occ hGE
        dsimp only
        refine ⟨?_, iO, ?_⟩
        · rw [Good, List.chain'_cons']
          refine ⟨?_, iG⟩
          intro y hy
          have hyo := compactAux_head minC Y (⟨Eord, Eoff, []⟩ : Entry T) occ y hy
          simp only [entryLE, hyo]
          omega
        · intro x
          rw [listVal_cons, iV x, listVal_cons, hEvalnone x, pickVal_none, listVal_cons]
  | cons z X2 ih =>
    intro cur Eord Eoff Y occ hGXY hXE hEY
    simp only [List.cons_append] at hGXY ⊢
    have hpair : entryLE cur z ∧ List.Chain' entryLE (z :: (X2 ++ Y)) :=
      List.chain'_cons.mp hGXY
    have hcz : cur.offset + (cur.data.length : Int) ≤ z.offset := hpair.1
    have hz0 : (0 : Int) ≤ (z.data.length : Int) := by positivity
    simp only [compactAux, List.append_eq]
    rw [if_neg (by omega)]
    by_cases hm : cur.offset + (cur.data.length : Int) = z.offset ∧
        z.offset + (z.data.length : Int) - cur.offset ≤ minC
    · rw [if_pos hm]
      have hGM : Good ((⟨cur.order, cur.offset, cur.data ++ z.data⟩ : Entry T) :: (X2 ++ Y)) := by
        rw [Good, List.chain'_cons']
        refine ⟨?_, good_tail _ _ hpair.2⟩
        intro h hh
        have hxh := (List.chain'_cons'.mp hpair.2).1 h hh
        simp only [entryLE, List.length_append] at hxh ⊢
        push_cast
        omega
      obtain ⟨iG, iO, iV⟩ := ih ⟨cur.order, cur.offset, cur.data ++ z.data⟩ Eord Eoff Y occ hGM
        (fun a ha => by
          rcases List.mem_cons.mp ha with rfl | ha
          · exact hXE cur (List.mem_cons_self _ _)
          · exact hXE a (List.mem_cons_of_mem _ (List.mem_cons_of_mem _ ha)))
        hEY
      refine ⟨iG, iO, ?_⟩
      intro x
      rw [iV x, listVal_merge cur.order cur z (X2 ++ Y) x hm.1]
    · rw [if_neg hm]
      obtain ⟨iG, iO, iV⟩ := ih z Eord Eoff Y occ hpair.2
        (fun a ha => hXE a (List.mem_cons_of_mem _ ha)) hEY
      dsimp only
      refine ⟨?_, iO, ?_⟩
      · rw [Good, List.chain'_cons']
        refine ⟨?_, iG⟩
        intro y hy
        have hyo := compactAux_head minC (X2 ++ (⟨Eord, Eoff, []⟩ : Entry T) :: Y) z occ y hy
        simp only [entryLE, hyo]
        omega
      · intro x
        rw [listVal_cons, listVal_cons, iV x]

/-- `Has` computes the same boolean as `Get` returns, on every store state. -/
theorem has_eq_get_snd (s : Store T) (o : Int) (p : List T) :
    s.Has o (p.length : Int) = (s.Get o p).2 := by
  unfold Store.Has Store.Get
  by_cases h0 : s.entries.length = 0 ∧ 0 < p.length
  · rw [if_pos h0, if_pos (show s.entries.length = 0 ∧ 0 < ((p.length : Nat) : Int)
      from ⟨h0.1, by exact_mod_cast h0.2⟩)]
  · rw [if_neg h0, if_neg (show ¬(s.entries.length = 0 ∧ 0 < ((p.length : Nat) : Int))
      from fun hc => h0 ⟨hc.1, by exact_mod_cast hc.2⟩)]
    dsimp only
    exact (getLoop_hasLoop o s.entries p o).symm

/-- On a `Good` store, `Get` fills each buffer position from the segment
backing it and leaves unbacked positions unchanged. -/
theorem get_buffer (s : Store T) (hG : Good s.entries) (o : Int)
    (p : List T) (i : Nat) (hi : i < p.length) :
    ((s.Get o p).1)[i]? = pickVal (listVal s.entries (o + (i : Int))) p[i]? := by
  unfold Store.Get
  by_cases h0 : s.entries.length = 0 ∧ 0 < p.length
  · rw [if_pos h0]
    have hnil : s.entries = [] := List.eq_nil_of_length_eq_zero h0.1
    rw [hnil]
    rfl
  · rw [if_neg h0]
    dsimp only
    exact getLoop_buffer o s.entries p o true hG i hi

theorem get_fst_length (s : Store T) (o : Int) (p : List T) :
    (s.Get o p).1.length = p.length := by
  unfold Store.Get
  split
  · rfl
  · dsimp only
    exact getLoop_fst_length o s.entries p o true

/-- `Set` of an empty sequence on a `Good` store: entries stay `Good`, the
occupancy counter is unchanged, and the stored value at every position is
unchanged. -/
theorem set_empty_val (s : Store T) (o : Int) (hG : Good s.entries) :
    Good ((s.Set o []).entries) ∧
      (s.Set o []).occupancy = s.occupancy ∧
      ∀ x : Int, listVal ((s.Set o []).entries) x = listVal s.entries x := by
  have hsplit : s.entries =
      s.entries.take (Search s.entries o) ++ s.entries.drop (Search s.entries o) :=
    (List.take_append_drop _ _).symm
  have hA := search_take_lt s.entries o
  have hB := search_drop_ge s.entries o hG
  unfold Store.Set
  rw [insertAt_eq]
  cases hcase : s.entries.take (Search s.entries o) with
  | nil =>
    rw [hcase, List.nil_append] at hsplit
    simp only [hcase, List.nil_append]
    unfold Store.compact
    dsimp only
    have hGE : Good ((⟨s.insertCount, o, []⟩ : Entry T) :: s.entries.drop (Search s.entries o)) := by
      rw [Good, List.chain'_cons']
      refine ⟨?_, hsplit ▸ hG⟩
      intro y hy
      have hym : y ∈ s.entries.drop (Search s.entries o) := List.mem_of_mem_head? hy
      simp only [entryLE, List.length_nil, Nat.cast_zero, add_zero]
      exact hB y hym
    obtain ⟨iG, iO, iV⟩ := compactAux_nooverlap s.minContiguous
      (s.entries.drop (Search s.entries o)) ⟨s.insertCount, o, []⟩
      (s.occupancy + ((List.length ([] : List T) : Nat) : Int)) hGE
    refine ⟨iG, ?_, ?_⟩
    · rw [iO]
      simp
    · intro x
      rw [iV x, listVal_cons, entryVal_empty _ x rfl, pickVal_none, ← hsplit]
  | cons a A2 =>
    rw [hcase] at hsplit hA
    simp only [hcase, List.cons_append]
    unfold Store.compact
    try dsimp only
    obtain ⟨iG, iO, iV⟩ := compactAux_insert_empty s.minContiguous A2 a s.insertCount o
      (s.entries.drop (Search s.entries o))
      (s.occupancy + ((List.length ([] : List T) : Nat) : Int))
      (by rw [← List.cons_append, ← hsplit]; exact hG)
      (fun x hx => le_of_lt (hA x hx))
      (fun y hy => hB y hy)
    refine ⟨iG, ?_, ?_⟩
    · rw [iO]
      simp
    · intro x
      rw [iV x, ← List.cons_append, ← hsplit]

/-- `Set(o, [])` is observationally a no-op on every `Good` store, apart from
the length update. -/
theorem set_empty_noop (s : Store T) (o : Int) (hG : Good s.entries) :
    (∀ (o2 : Int) (p : List T), (s.Set o []).Get o2 p = s.Get o2 p) ∧
      (∀ o2 n : Int, (s.Set o []).Has o2 n = s.Has o2 n) ∧
      (s.Set o []).Occupancy = s.Occupancy ∧
      (s.Set o []).Length = max s.Length o := by
  obtain ⟨hG', hocc, hval⟩ := set_empty_val s o hG
  have hhas : ∀ o2 n : Int, (s.Set o []).Has o2 n = s.Has o2 n := by
    intro o2 n
    rw [Bool.eq_iff_iff, has_correct _ hG' o2 n, has_correct _ hG o2 n]
    constructor
    · intro h x hx1 hx2
      have := h x hx1 hx2
      rw [hval x] at this
      exact this
    · intro h x hx1 hx2
      rw [hval x]
      exact h x hx1 hx2
  refine ⟨?_, hhas, hocc, ?_⟩
  · intro o2 p
    have hfst : ((s.Set o []).Get o2 p).1 = (s.Get o2 p).1 := by
      apply List.ext_getElem?
      intro i
      by_cases hi : i < p.length
      · rw [get_buffer _ hG' o2 p i hi, get_buffer _ hG o2 p i hi, hval]
      · rw [List.getElem?_eq_none (by rw [get_fst_length]; omega),
          List.getElem?_eq_none (by rw [get_fst_length]; omega)]
    have hsnd : ((s.Set o []).Get o2 p).2 = (s.Get o2 p).2 := by
      rw [← has_eq_get_snd, ← has_eq_get_snd]
      exact hhas o2 (p.length : Int)
    exact Prod.ext hfst hsnd
  · rw [Store.Length, Store.Length, set_length]
    simp

end SparseStore

section Claims

variable {T : Type}

/-- C3: after any sequence of `Set` calls on a fresh store (any
`minContiguous`), the entry list satisfies the sortedness/non-overlap
invariant: for every adjacent pair, the earlier segment's
`offset + len(data)` is at most the later segment's `offset`. -/
theorem c3_entries_sorted_nonoverlapping (m : Int) (ws : List (Int × List T)) :
    Good (applyWrites (WithMinContiguous m (NewStore (T := T))) ws).entries :=
  applyWrites_good ws _ List.chain'_nil

/-- C4: after any sequence of `Set` calls on a fresh store, the occupancy
counter equals the exact sum of `len(data)` over all stored segments, and
`Occupancy()` returns it. -/
theorem c4_occupancy_eq_size_sum (m : Int) (ws : List (Int × List T)) :
    (applyWrites (WithMinContiguous m (NewStore (T := T))) ws).Occupancy =
      sizes (applyWrites (WithMinContiguous m (NewStore (T := T))) ws).entries := by
  have h := applyWrites_occ ws (WithMinContiguous m (NewStore (T := T))) List.chain'_nil
  have h0 : (WithMinContiguous m (NewStore (T := T))).occupancy = 0 := rfl
  have h1 : sizes (WithMinContiguous m (NewStore (T := T))).entries = 0 := rfl
  unfold Store.Occupancy
  omega

/-- C8: for any sequence of `Set` calls with non-negative offsets on a fresh
store, `Occupancy() ≤ Length()`; `Length` is monotonically non-decreasing
under any further `Set`; and `Length` equals the maximum of
`offset + len(values)` over all `Set` calls so far (with 0 for the empty
sequence). -/
theorem c8_occupancy_le_length (m : Int) (ws : List (Int × List T))
    (hw : ∀ w ∈ ws, 0 ≤ w.1) :
    (applyWrites (WithMinContiguous m (NewStore (T := T))) ws).Occupancy ≤
        (applyWrites (WithMinContiguous m (NewStore (T := T))) ws).Length ∧
      (∀ (o : Int) (p : List T),
        (applyWrites (WithMinContiguous m (NewStore (T := T))) ws).Length ≤
          ((applyWrites (WithMinContiguous m (NewStore (T := T))) ws).Set o p).Length) ∧
      (applyWrites (WithMinContiguous m (NewStore (T := T))) ws).Length =
        ws.foldl (fun L w => max L (w.1 + (w.2.length : Int))) 0 := by
  have hG := applyWrites_good ws (WithMinContiguous m (NewStore (T := T))) List.chain'_nil
  have hbd := applyWrites_bounded ws (WithMinContiguous m (NewStore (T := T)))
    List.chain'_nil (by intro e he; cases he) le_rfl hw
  have hocc := c4_occupancy_eq_size_sum m ws
  refine ⟨?_, ?_, ?_⟩
  · have hsz := sizes_le_of_good
      (applyWrites (WithMinContiguous m (NewStore (T := T))) ws).entries 0
      (applyWrites (WithMinContiguous m (NewStore (T := T))) ws).length hG hbd.2 hbd.1
    unfold Store.Occupancy at hocc
    unfold Store.Occupancy Store.Length
    omega
  · intro o p
    have := set_length (applyWrites (WithMinContiguous m (NewStore (T := T))) ws) o p
    unfold Store.Length
    omega
  · exact applyWrites_length ws _

/-- Witness for C8 at a concrete write sequence. -/
theorem c8_occupancy_le_length_witness :
    (∀ w ∈ [((0 : Int), [1, 2, 3]), ((5 : Int), [7])], 0 ≤ w.1) ∧
      ((applyWrites (WithMinContiguous 4 (NewStore (T := Nat)))
            [((0 : Int), [1, 2, 3]), ((5 : Int), [7])]).Occupancy ≤
          (applyWrites (WithMinContiguous 4 (NewStore (T := Nat)))
            [((0 : Int), [1, 2, 3]), ((5 : Int), [7])]).Length ∧
        (∀ (o : Int) (p : List Nat),
          (applyWrites (WithMinContiguous 4 (NewStore (T := Nat)))
              [((0 : Int), [1, 2, 3]), ((5 : Int), [7])]).Length ≤
            ((applyWrites (WithMinContiguous 4 (NewStore (T := Nat)))
              [((0 : Int), [1, 2, 3]), ((5 : Int), [7])]).Set o p).Length) ∧
        (applyWrites (WithMinContiguous 4 (NewStore (T := Nat)))
            [((0 : Int), [1, 2, 3]), ((5 : Int), [7])]).Length =
          [((0 : Int), [1, 2, 3]), ((5 : Int), [7])].foldl
            (fun L w => max L (w.1 + (w.2.length : Int))) 0) :=
  ⟨by decide, c8_occupancy_le_length 4 _ (by decide)⟩

/-- C5: the concrete reference scenario.  On an empty (default) store, after
`Set(0,[0,1,2])` and `Set(4,[4])`: `Length()=5`, `Occupancy()=4`, and `Get(0)`
on a zeroed 5-element buffer fills it to `[0,1,2,0,4]` and returns `false`;
after additionally `Set(3,[3])`: `Length()=5`, `Occupancy()=5`, and the same
`Get` fills `[0,1,2,3,4]` and returns `true`. -/
theorem c5_concrete_scenario :
    (applyWrites (NewStore (T := Nat)) [(0, [0, 1, 2]), (4, [4])]).Length = 5 ∧
      (applyWrites (NewStore (T := Nat)) [(0, [0, 1, 2]), (4, [4])]).Occupancy = 4 ∧
      (applyWrites (NewStore (T := Nat)) [(0, [0, 1, 2]), (4, [4])]).Get 0 [0, 0, 0, 0, 0] =
        ([0, 1, 2, 0, 4], false) ∧
      (applyWrites (NewStore (T := Nat)) [(0, [0, 1, 2]), (4, [4]), (3, [3])]).Length = 5 ∧
      (applyWrites (NewStore (T := Nat)) [(0, [0, 1, 2]), (4, [4]), (3, [3])]).Occupancy = 5 ∧
      (applyWrites (NewStore (T := Nat)) [(0, [0, 1, 2]), (4, [4]), (3, [3])]).Get 0
          [0, 0, 0, 0, 0] = ([0, 1, 2, 3, 4], true) := by
  decide

/-- C7 counterexample: with `minContiguous = 6`, after `Set(0, 3 values)`,
`Set(3, 5 values)`, `Set(5, 10 values)` the store holds three segments
`[0,3)`, `[3,5)`, `[5,15)`.  The first two are exactly touching
(`0 + 3 = 3`) and their combined length is `3 + 2 = 5 ≤ 6 = minContiguous`,
yet they remain separate: overlap resolution truncated the middle segment
after the pass had already examined the first pair.  This refutes the claim
that no such pair remains after an operation. -/
theorem c7_counterexample :
    (applyWrites (WithMinContiguous 6 (NewStore (T := Nat)))
          [(0, [1, 1, 1]), (3, [2, 2, 2, 2, 2]), (5, [3, 3, 3, 3, 3, 3, 3, 3, 3, 3])]).minContiguous
        = 6 ∧
      ((applyWrites (WithMinContiguous 6 (NewStore (T := Nat)))
            [(0, [1, 1, 1]), (3, [2, 2, 2, 2, 2]),
              (5, [3, 3, 3, 3, 3, 3, 3, 3, 3, 3])]).entries.map
          fun e => (e.offset, (e.data.length : Int))) = [(0, 3), (3, 2), (5, 10)] := by
  decide

/-- C7 (amended): compaction never merges two segments separated by a gap and
never merges an exactly-touching pair whose combined span exceeds
`minContiguous` — a segment list in which adjacent pairs do not overlap and
every touching pair has combined span greater than `minContiguous` is a fixed
point of `compact`.  (The original claim's stronger guarantee — that no
touching pair with combined length at most `minContiguous` survives — fails,
see the counterexample.) -/
theorem c7_amended_no_gap_bridging_no_large_merges (s : Store T)
    (h : Stable s.minContiguous s.entries) : s.compact = s := by
  unfold Store.compact
  cases hs : s.entries with
  | nil => rfl
  | cons c rest =>
    rw [hs] at h
    dsimp only
    rw [compactAux_stable s.minContiguous rest c s.occupancy h]
    rw [← hs]

/-- Witness for the amended C7 at a concrete stable store. -/
theorem c7_amended_witness :
    Stable (applyWrites (WithMinContiguous 1 (NewStore (T := Nat)))
          [(0, [1]), (2, [2])]).minContiguous
        (applyWrites (WithMinContiguous 1 (NewStore (T := Nat)))
          [(0, [1]), (2, [2])]).entries ∧
      (applyWrites (WithMinContiguous 1 (NewStore (T := Nat)))
          [(0, [1]), (2, [2])]).compact =
        applyWrites (WithMinContiguous 1 (NewStore (T := Nat))) [(0, [1]), (2, [2])] :=
  ⟨by decide, c7_amended_no_gap_bridging_no_large_merges _ (by decide)⟩

/-- C1 (code bug): last-write-wins fails.  With the default configuration,
after `Set(0,[10,11,12,13])`, `Set(5,[20,21,22,23])`, `Set(2,[30,31,32,33,34])`
the latest write covering position 5 is the third one (range `[2,7)`), whose
value there is `33`; per the claim `Get` must return `33` at position 5, but
the code returns `20`, the second (earlier) write's value: during compaction
the merge of the truncated first segment with the new segment stamps the
merged segment with the *older* write order, so the later overlap with the
offset-5 segment is resolved in favour of the earlier write. -/
theorem c1_last_write_wins_bug :
    ((applyWrites (NewStore (T := Nat))
          [(0, [10, 11, 12, 13]), (5, [20, 21, 22, 23]), (2, [30, 31, 32, 33, 34])]).Get 5
        [0]) = ([20], true) ∧
      latestVal [((0 : Int), [10, 11, 12, 13]), (5, [20, 21, 22, 23]),
          (2, [30, 31, 32, 33, 34])] 5 = some 33 := by
  decide

/-- C2: on every reachable store, `Has(o, len(p))` returns exactly the
completeness boolean of `Get(o, p)` (the two perform the same completeness
scan), and both are `true` iff every position of `[o, o + len(p))` is backed
by a stored segment. -/
theorem c2_has_matches_get (m : Int) (ws : List (Int × List T)) (o : Int) (p : List T) :
    (applyWrites (WithMinContiguous m (NewStore (T := T))) ws).Has o (p.length : Int) =
        ((applyWrites (WithMinContiguous m (NewStore (T := T))) ws).Get o p).2 ∧
      ((applyWrites (WithMinContiguous m (NewStore (T := T))) ws).Has o (p.length : Int) = true ↔
        ∀ x : Int, o ≤ x → x < o + (p.length : Int) →
          (listVal (applyWrites (WithMinContiguous m (NewStore (T := T))) ws).entries x).isSome
            = true) :=
  ⟨has_eq_get_snd _ o p,
    has_correct _
      (applyWrites_good ws (WithMinContiguous m (NewStore (T := T))) List.chain'_nil) o
      (p.length : Int)⟩

/-- C6: `Get` fills each buffer position from the segment backing it and
leaves every position whose logical address is not backed by any segment
unchanged — regardless of the returned completeness boolean. -/
theorem c6_get_fills_backed_leaves_rest (s : Store T) (hG : Good s.entries) (o : Int)
    (p : List T) (i : Nat) (hi : i < p.length) :
    ((s.Get o p).1)[i]? = pickVal (listVal s.entries (o + (i : Int))) p[i]? :=
  get_buffer s hG o p i hi

/-- Witness for C6 at a concrete store and buffer. -/
theorem c6_get_fills_backed_leaves_rest_witness :
    Good (applyWrites (NewStore (T := Nat)) [(1, [7, 8])]).entries ∧ 2 < 3 ∧
      (((applyWrites (NewStore (T := Nat)) [(1, [7, 8])]).Get 0 [9, 9, 9]).1)[2]? =
        pickVal (listVal (applyWrites (NewStore (T := Nat)) [(1, [7, 8])]).entries
          (0 + ((2 : Nat) : Int))) [9, 9, 9][2]? :=
  ⟨by decide, by decide,
    c6_get_fills_backed_leaves_rest _ (by decide) 0 [9, 9, 9] 2 (by decide)⟩

/-- C9: `Set(o, [])` on any reachable store never fails and is a no-op
beyond the length update: every subsequent `Get`, `Has` and `Occupancy`
result is unchanged, and `Length` becomes `max(previous length, o)`. -/
theorem c9_empty_set_noop (m : Int) (ws : List (Int × List T)) (o : Int) :
    (∀ (o2 : Int) (p : List T),
        ((applyWrites (WithMinContiguous m (NewStore (T := T))) ws).Set o []).Get o2 p =
          (applyWrites (WithMinContiguous m (NewStore (T := T))) ws).Get o2 p) ∧
      (∀ o2 n : Int,
        ((applyWrites (WithMinContiguous m (NewStore (T := T))) ws).Set o []).Has o2 n =
          (applyWrites (WithMinContiguous m (NewStore (T := T))) ws).Has o2 n) ∧
      ((applyWrites (WithMinContiguous m (NewStore (T := T))) ws).Set o []).Occupancy =
        (applyWrites (WithMinContiguous m (NewStore (T := T))) ws).Occupancy ∧
      ((applyWrites (WithMinContiguous m (NewStore (T := T))) ws).Set o []).Length =
        max (applyWrites (WithMinContiguous m (NewStore (T := T))) ws).Length o :=
  set_empty_noop _ o
    (applyWrites_good ws (WithMinContiguous m (NewStore (T := T))) List.chain'_nil)

/-- C10: zero- and negative-length completeness queries always report
complete, on every store state (reachable or not), with no precondition
check rejecting them: `Has(o, n)` is `true` whenever `n ≤ 0`, and
`Get(o, p)` returns `true` whenever `len(p) = 0`. -/
theorem c10_trivial_queries (s : Store T) (o n : Int) (p : List T)
    (hn : n ≤ 0) (hp : p.length = 0) :
    s.Has o n = true ∧ (s.Get o p).2 = true := by
  constructor
  · unfold Store.Has
    rw [if_neg (fun hc => by omega)]
    rw [decide_eq_true_eq]
    have := hasLoop_ge o n s.entries o le_rfl
    omega
  · have hpn : p = [] := List.eq_nil_of_length_eq_zero hp
    subst hpn
    unfold Store.Get
    rw [if_neg (by simp)]
    dsimp only
    obtain ⟨hb, hf, hc⟩ := getLoop_nil_buffer o s.entries o le_rfl
    rw [hb, hf]
    simp only [List.length_nil, Nat.cast_zero, add_zero, Bool.true_and, decide_eq_true_eq]
    exact hc

/-- Witness for C10 at a negative offset and length on a non-empty store. -/
theorem c10_trivial_queries_witness :
    ((-1 : Int) ≤ 0 ∧ ([] : List Nat).length = 0) ∧
      (applyWrites (NewStore (T := Nat)) [(1, [5])]).Has (-2) (-1) = true ∧
        ((applyWrites (NewStore (T := Nat)) [(1, [5])]).Get (-2) ([] : List Nat)).2 = true :=
  ⟨⟨by decide, by decide⟩,
    c10_trivial_queries (applyWrites (NewStore (T := Nat)) [(1, [5])]) (-2) (-1) []
      (by decide) (by decide)⟩

end Claims
